import Mathlib

/-!
Verification of the Bsky-Bot repository's publishing layer
(src/polybot/bot.py, src/polybot/service.py) and dedup history
(src/helloworldbot.py), as a shallow embedding in Lean.

Python strings are embedded as `List Char` (one element per code point,
so `List.length` matches Python `len`).
-/

namespace BskyBot

/-- Embedding of a Python `str` as a list of its code points. -/
abbrev Text := List Char

/-- Whitespace test on a character (Python `str.split()` semantics). -/
def isWs (c : Char) : Bool := c.isWhitespace

/-- Accumulator-based whitespace chunker: `wordsAux acc t` scans `t`,
building the current word (reversed) in `acc`, and emits maximal runs of
non-whitespace characters. -/
def wordsAux : List Char → Text → List Text
  | acc, [] => if acc = [] then [] else [acc.reverse]
  | acc, c :: cs =>
    if isWs c then
      if acc = [] then wordsAux [] cs else acc.reverse :: wordsAux [] cs
    else wordsAux (c :: acc) cs

/-- The whitespace-delimited words of a text, in order (Python
`str.split()` with no arguments: empty chunks are dropped). -/
def words (t : Text) : List Text := wordsAux [] t

/-- Rendered length of a line made of the given words joined by single
spaces (0 for the empty line). -/
def lineLen (l : List Text) : Nat := (l.map List.length).sum + l.length - 1

/-- Join a list of words with single spaces. -/
def render : List Text → Text
  | [] => []
  | [w] => w
  | w :: rest => w ++ ' ' :: render rest

/-- Measure used for termination of `wrapAux`: total size of the pending
words. -/
def wsum (ws : List Text) : Nat := ws.foldr (fun w a => w.length + 1 + a) 0

/-- Modelled from the spec: Python's standard-library `textwrap.wrap`
(an external collaborator of src/polybot/service.py, not part of src/) —
greedy word-boundary wrapping of the pending words `ws` into lines of at
most `width` characters, `cur` being the words already placed on the
current line.  A word longer than `width` is broken: it first fills the
space remaining on the current line, and the rest flows onto following
lines (CPython's `break_long_words` default). -/
def wrapAux (width : Nat) : List Text → List Text → List (List Text)
  | cur, [] => if cur = [] then [] else [cur]
  | cur, w :: ws =>
    if cur = [] then
      if w.length ≤ width then wrapAux width [w] ws
      else [w.take (max width 1)] :: wrapAux width [] (w.drop (max width 1) :: ws)
    else
      if lineLen cur + 1 + w.length ≤ width then wrapAux width (cur ++ [w]) ws
      else if w.length ≤ width then cur :: wrapAux width [w] ws
      else if lineLen cur + 1 < width then
        (cur ++ [w.take (width - (lineLen cur + 1))]) ::
          wrapAux width [] (w.drop (width - (lineLen cur + 1)) :: ws)
      else cur :: wrapAux width [] (w :: ws)
  termination_by cur ws => 2 * wsum ws + (if cur = [] then 0 else 1)
  decreasing_by
    all_goals simp_all [wsum, List.length_drop]
    all_goals omega

/-- Modelled from the spec: `textwrap.wrap(text, width)` — split `text`
into words at whitespace and wrap them greedily into lines of at most
`width` characters, each line rendered with single spaces between words. -/
def textwrap_wrap (width : Nat) (text : Text) : List Text :=
  (wrapAux width [] (words text)).map render

/-- Embeds the class attribute `Service.ellipsis_length = 1`
(src/polybot/service.py line 30). -/
def ellipsis_length : Nat := 1

/-- Embeds `max_len = self.max_length_image if images else self.max_length`
(src/polybot/service.py lines 52 and 97). -/
def pick_max_len (max_length max_length_image : Nat) (hasImages : Bool) : Nat :=
  if hasImages then max_length_image else max_length

/-- Embeds the class attribute `Bluesky.max_length = 300`
(src/polybot/service.py line 131). -/
def Bluesky_max_length : Nat := 300

/-- Embeds the class attribute `Bluesky.max_length_image = 300`
(src/polybot/service.py line 132). -/
def Bluesky_max_length_image : Nat := 300

/-- Embeds the per-line ellipsis decoration of `Service.do_wrapped`
(src/polybot/service.py lines 104-107): when the line is the first of
more than one, a single U+2026 is appended; when it is not the first,
a single U+2026 is prepended. -/
def fragLine (many first : Bool) (line : Text) : Text :=
  let l1 := if first && many then line ++ ['…'] else line
  if !first then '…' :: l1 else l1

/-- Applies `fragLine` along a list of wrapped lines, the first with
`first = true` and the rest with `first = false`, mirroring the loop of
`Service.do_wrapped` (src/polybot/service.py lines 102-107). -/
def fragmentsAux (many : Bool) : Bool → List Text → List Text
  | _, [] => []
  | first, l :: rest => fragLine many first l :: fragmentsAux many false rest

/-- Embeds the line computation of `Service.do_wrapped`
(src/polybot/service.py lines 97-101): wrap only when the text exceeds
the applicable limit, otherwise a single line equal to the text. -/
def wrappedLines (max_length max_length_image : Nat) (hasImages : Bool)
    (status : Text) : List Text :=
  let max_len := pick_max_len max_length max_length_image hasImages
  if max_len < status.length then textwrap_wrap (max_len - ellipsis_length) status
  else [status]

/-- The sequence of fragment texts produced by `Service.do_wrapped`
(src/polybot/service.py lines 97-107): the wrapped lines decorated with
ellipses. -/
def do_wrapped_fragments (max_length max_length_image : Nat) (hasImages : Bool)
    (status : Text) : List Text :=
  let wrapped := wrappedLines max_length max_length_image hasImages status
  fragmentsAux (decide (1 < wrapped.length)) true wrapped

/-- Removing the ellipsis decoration from one fragment: the first
fragment loses a trailing U+2026 if it has one, a later fragment loses a
leading U+2026 if it has one. -/
def stripEllipsis (first : Bool) (f : Text) : Text :=
  if first then if f.getLast? = some '…' then f.dropLast else f
  else if f.head? = some '…' then f.tail else f

/-- Removing the ellipsis decoration from every fragment of a wrapped
post. -/
def strippedFragments : List Text → List Text
  | [] => []
  | f :: rest => stripEllipsis true f :: rest.map (stripEllipsis false)

/-- The three shapes of backend post results consumed by
`Service.do_wrapped` (src/polybot/service.py lines 116-124): an atproto
strong ref, an object carrying an `id` attribute, or a response whose
`data` dict carries an `"id"` key. -/
inductive BRes where
  | strongRef (n : Nat)
  | withId (n : Nat)
  | keyed (n : Nat)
deriving DecidableEq, Repr

/-- The value held by the `in_reply_to_id` variable of
`Service.do_wrapped` after the first post: either the
`{"root": _, "parent": _}` dict or a flat id. -/
inductive ReplyVal where
  | rootParent (root parent : BRes)
  | flat (n : Nat)
deriving DecidableEq, Repr

/-- The Python exceptions relevant to the embedded code paths. -/
inductive PyErr where
  | valueError (msg : String)
  | typeError
  | attributeError
  | requestException
  | postError
deriving DecidableEq, Repr

/-- One invocation of `self.do_post` made by `Service.do_wrapped`
(src/polybot/service.py lines 109-114): the decorated line, whether the
images were passed, and the reply reference passed. -/
structure Call where
  line : Text
  withImages : Bool
  reply : Option ReplyVal
deriving DecidableEq, Repr

/-- Embeds the reply-reference extraction of `Service.do_wrapped`
(src/polybot/service.py lines 116-124).  `out = None` (a skipped post)
matches neither the strong-ref `isinstance` check nor `hasattr(out, "id")`,
so Python evaluates `None.data["id"]` and raises `AttributeError`;
an `in_reply_to_id["parent"] = out` assignment on a non-dict raises
`TypeError`. -/
def updateReply (reply : Option ReplyVal) (first : Bool) (out : Option BRes) :
    Except PyErr (Option ReplyVal) :=
  match out with
  | some (.strongRef n) =>
    if first then .ok (some (.rootParent (.strongRef n) (.strongRef n)))
    else
      match reply with
      | some (.rootParent root _) => .ok (some (.rootParent root (.strongRef n)))
      | some (.flat _) => .error .typeError
      | none => .error .typeError
  | some (.withId n) => .ok (some (.flat n))
  | some (.keyed n) => .ok (some (.flat n))
  | none => .error .attributeError

/-- Embeds the posting loop of `Service.do_wrapped`
(src/polybot/service.py lines 102-125) over the wrapped lines, the
backend's successive `do_post` results being supplied by `results`
(`none` embeds a `do_post` that returned `None`).  Returns the calls
performed before the loop finished or raised, and the exception if one
was raised. -/
def wrappedLoop (hasImages many : Bool) :
    List Text → List (Option BRes) → Bool → Option ReplyVal →
      List Call × Option PyErr
  | [], _, _, _ => ([], none)
  | line :: rest, results, first, reply =>
    let line2 := fragLine many first line
    let call : Call := ⟨line2, hasImages && first, reply⟩
    let out := results.headD none
    match updateReply reply first out with
    | .error e => ([call], some e)
    | .ok reply2 =>
      let next := wrappedLoop hasImages many rest results.tail false reply2
      (call :: next.1, next.2)

/-- Embeds `Service.do_wrapped` (src/polybot/service.py lines 89-125):
compute the wrapped lines for the applicable limit, then run the posting
loop over them. -/
def do_wrapped (max_length max_length_image : Nat) (hasImages : Bool)
    (status : Text) (reply0 : Option ReplyVal) (results : List (Option BRes)) :
    List Call × Option PyErr :=
  let wrapped := wrappedLines max_length max_length_image hasImages status
  wrappedLoop hasImages (decide (1 < wrapped.length)) wrapped results true reply0

/-- Length comparison used as the sort key of `Service.longest_allowed`
(`sorted(status, key=len)`, src/polybot/service.py line 54). -/
def lenLE (a b : Text) : Prop := a.length ≤ b.length

instance : DecidableRel lenLE := fun a b => Nat.decLe a.length b.length

instance : IsTotal Text lenLE := ⟨fun a b => Nat.le_total a.length b.length⟩

instance : IsTrans Text lenLE := ⟨fun _ _ _ => Nat.le_trans⟩

/-- Embeds `Service.longest_allowed` (src/polybot/service.py lines
51-57): start from `status[0]`, then walk the candidates in stable
ascending-length order, replacing the pick by every candidate strictly
shorter than the applicable limit.  `none` embeds the `IndexError` that
`status[0]` raises on an empty list. -/
def longest_allowed (max_length max_length_image : Nat) (hasImages : Bool)
    (status : List Text) : Option Text :=
  match status with
  | [] => none
  | s0 :: _ =>
    let max_len := pick_max_len max_length max_length_image hasImages
    some ((List.insertionSort lenLE status).foldl
      (fun picked s => if s.length < max_len then s else picked) s0)

/-- The `status` argument of `Bot.post` (src/polybot/bot.py line 129):
a single string or a list of candidate strings. -/
inductive StatusArg where
  | str (s : Text)
  | list (l : List Text)
deriving DecidableEq

/-- Number of parameters `Service.post` declares after `self`
(src/polybot/service.py lines 59-67: status, wrap, images, lat, lon,
in_reply_to_id). -/
def service_post_param_count : Nat := 6

/-- Number of positional arguments `Bot.post` passes after `self`
(src/polybot/bot.py lines 148-150: status, wrap, imagefile, mime_type,
lat, lon, in_reply_to_id). -/
def bot_post_call_arg_count : Nat := 7

/-- Embeds one `service.post(...)` call as made by `Bot.post`: Python
raises `TypeError` before entering the body when more positional
arguments are passed than the callee declares; otherwise the call would
run `Service.post`'s body (whose outcome is irrelevant here, since the
argument counts are fixed by the source). -/
def callServicePost (argCount : Nat) : Except PyErr Unit :=
  if service_post_param_count < argCount then .error .typeError
  else .ok ()

/-- Embeds the fan-out loop of `Bot.post` (src/polybot/bot.py lines
143-153): each configured service is called in order inside
`try: ... except PostError: log`, so only a `PostError` is swallowed;
any other exception propagates and the partial result dict is lost. -/
def fanOut : List String → Except PyErr (List (String × Unit))
  | [] => .ok []
  | name :: rest =>
    match callServicePost bot_post_call_arg_count with
    | .error .postError => fanOut rest
    | .error e => .error e
    | .ok r =>
      match fanOut rest with
      | .error e => .error e
      | .ok out => .ok ((name, r) :: out)

/-- Embeds `Bot.post` (src/polybot/bot.py lines 127-153): the
list/wrap/empty validation, then the fan-out over the configured
services. -/
def bot_post (services : List String) (status : StatusArg) (wrap : Bool) :
    Except PyErr (List (String × Unit)) :=
  match status with
  | .list l =>
    if wrap then .error (.valueError "Cannot mix wrap and status list")
    else if l.length = 0 then .error (.valueError "Cannot supply an empty list")
    else fanOut services
  | .str _ => fanOut services

/-- One entry of `post_history['posts']` (src/helloworldbot.py lines
57-61): content, normalized hash, timestamp. -/
structure PostData where
  content : String
  hash : String
  timestamp : Nat
deriving DecidableEq

/-- The entry `add_to_history` builds for a post (src/helloworldbot.py
lines 57-61), parametric in the digest function (`hashlib.md5(...)
.hexdigest()` is standard-library code outside src/, so the digest is
kept abstract; the lower-casing is from the source). -/
def mkPostData (hashFn : String → String) (post : String) (ts : Nat) : PostData :=
  ⟨post, hashFn post.toLower, ts⟩

/-- Embeds `TechNewsBot.is_duplicate` (src/helloworldbot.py lines
43-53): true iff some retained entry's hash equals the digest of the
lower-cased post. -/
def is_duplicate (hashFn : String → String) (posts : List PostData)
    (post : String) : Bool :=
  posts.any (fun hp => hp.hash == hashFn post.toLower)

/-- Embeds `TechNewsBot.add_to_history` (src/helloworldbot.py lines
55-68): append the new entry, then keep only the last 1000 entries
(`[-1000:]`) when the count exceeds 1000. -/
def add_to_history (hashFn : String → String) (posts : List PostData)
    (post : String) (ts : Nat) : List PostData :=
  let appended := posts ++ [mkPostData hashFn post ts]
  if 1000 < appended.length then appended.drop (appended.length - 1000)
  else appended

/-- Iterated `add_to_history` over a list of (post, timestamp) inputs. -/
def recordAll (hashFn : String → String) (inputs : List (String × Nat))
    (posts : List PostData) : List PostData :=
  inputs.foldl (fun h pt => add_to_history hashFn h pt.1 pt.2) posts

/-- The mutable state of the `Bluesky` service relevant to `auth`
(src/polybot/service.py lines 136-139): the login rate-limit expiry and
the connection flag. -/
structure BlueskyState where
  login_ratelimit_expiry : Nat
  connected : Bool
deriving DecidableEq, Repr

/-- The outcome of the network login attempt inside `Bluesky.auth`
(src/polybot/service.py lines 151-165): success, a `RequestException`
with HTTP status 429 carrying a `ratelimit-reset` value, or any other
`RequestException`. -/
inductive LoginResult where
  | success
  | rateLimited (reset : Nat)
  | failure
deriving DecidableEq, Repr

/-- Result of an embedded `Bluesky.auth` call: the new state, whether a
network login attempt was made, and the exception re-raised if any. -/
structure AuthOutcome where
  state : BlueskyState
  attempted : Bool
  raised : Option PyErr
deriving DecidableEq, Repr

/-- Embeds `Bluesky.auth` (src/polybot/service.py lines 141-168): if the
stored rate-limit expiry is still in the future, return without
attempting login; otherwise attempt login — on success set `connected`,
on a 429 store the reset value and return, on any other failure re-raise. -/
def bluesky_auth (st : BlueskyState) (now : Nat) (login : LoginResult) :
    AuthOutcome :=
  if now < st.login_ratelimit_expiry then ⟨st, false, none⟩
  else
    match login with
    | .success => ⟨{ st with connected := true }, true, none⟩
    | .rateLimited reset => ⟨{ st with login_ratelimit_expiry := reset }, true, none⟩
    | .failure => ⟨st, true, some .requestException⟩

/-- Result of an embedded `Bluesky.do_post` call: the new state, the
value returned (`none` embeds Python's `None`), and the exception raised
if any. -/
structure DoPostOutcome where
  state : BlueskyState
  result : Option BRes
  raised : Option PyErr
deriving DecidableEq, Repr

/-- Embeds `Bluesky.do_post` (src/polybot/service.py lines 179-214): if
not connected, run one lazy `auth` (its login attempt outcome given by
`login`); if still not connected, log and return `None`; otherwise send
(`sendResult` embeds the network send: a strong ref on success, `none`
for an exception, which is wrapped into `PostError`). -/
def bluesky_do_post (st : BlueskyState) (now : Nat) (login : LoginResult)
    (sendResult : Option Nat) : DoPostOutcome :=
  let a := if !st.connected then bluesky_auth st now login else ⟨st, false, none⟩
  match a.raised with
  | some e => ⟨a.state, none, some e⟩
  | none =>
    if !a.state.connected then ⟨a.state, none, none⟩
    else
      match sendResult with
      | some n => ⟨a.state, some (.strongRef n), none⟩
      | none => ⟨a.state, none, some .postError⟩

/-- The fan-out loop of `Bot.post` evaluates in closed form: with no
configured service it returns the empty dict, and with at least one
configured service the first `service.post(...)` call raises `TypeError`
(seven positional arguments against six declared parameters), which the
`except PostError` handler does not catch. -/
theorem fanOut_eq (services : List String) :
    fanOut services =
      match services with
      | [] => .ok []
      | _ :: _ => .error .typeError := by
  cases services <;> rfl

/-- Claim C1 (code bug): `Bot.post` (src/polybot/bot.py lines 148-150)
passes seven positional arguments to `Service.post`, which declares only
six (src/polybot/service.py lines 59-67), so with a configured backend
the call raises `TypeError` before any forwarding happens; `TypeError`
is not a `PostError`, so it propagates past `Bot.post` and no result map
is returned.  Evaluated here at the failing input: one configured
backend named "bluesky" and a plain string status. -/
theorem c1_bot_post_raises_type_error :
    bot_post ["bluesky"] (.str "hello world".toList) false = .error .typeError ∧
    bot_post ["bluesky", "mastodon"] (.str "hi".toList) false =
      .error .typeError := by
  exact ⟨rfl, rfl⟩

/-- Claim C9: `Bot.post` raises `ValueError` when the status argument is
a list and the wrap flag is set, raises `ValueError` when the status
argument is an empty list, and raises no `ValueError` for a single
string or for a non-empty list without wrap. -/
theorem c9_bot_post_validation :
    (∀ services l, bot_post services (.list l) true =
        .error (.valueError "Cannot mix wrap and status list")) ∧
    (∀ services, bot_post services (.list []) false =
        .error (.valueError "Cannot supply an empty list")) ∧
    (∀ services s w msg,
        bot_post services (.str s) w ≠ .error (.valueError msg)) ∧
    (∀ services l msg, l ≠ [] →
        bot_post services (.list l) false ≠ .error (.valueError msg)) := by
  refine ⟨fun services l => rfl, fun services => rfl, ?_, ?_⟩
  · intro services s w msg
    simp only [bot_post, fanOut_eq]
    cases services <;> simp
  · intro services l msg hl
    have h0 : ¬ l.length = 0 := fun h => hl (List.length_eq_zero.mp h)
    cases services <;> simp [bot_post, fanOut_eq, h0]

/-- Witness for claim C9 at concrete inputs. -/
theorem c9_bot_post_validation_witness :
    (([['a'], ['b']] : List Text) ≠ []) ∧
    bot_post ["bluesky"] (.list [['a'], ['b']]) false ≠
      .error (.valueError "Cannot supply an empty list") :=
  ⟨by decide,
   c9_bot_post_validation.2.2.2 ["bluesky"] [['a'], ['b']]
     "Cannot supply an empty list" (by decide)⟩

/-- Claim C4: when the text fits the applicable limit (image limit when
images are present, plain limit otherwise), `do_wrapped` produces
exactly one fragment identical to the input, with no ellipsis. -/
theorem c4_short_text_single_fragment (maxL maxLI : Nat) (img : Bool)
    (status : Text) (h : status.length ≤ pick_max_len maxL maxLI img) :
    do_wrapped_fragments maxL maxLI img status = [status] := by
  have hn : ¬ pick_max_len maxL maxLI img < status.length := by omega
  simp [do_wrapped_fragments, wrappedLines, if_neg hn, fragmentsAux, fragLine]

/-- Witness for claim C4: a five-character text against the Bluesky
limits. -/
theorem c4_short_text_single_fragment_witness :
    "hello".toList.length ≤ pick_max_len Bluesky_max_length
      Bluesky_max_length_image false ∧
    do_wrapped_fragments Bluesky_max_length Bluesky_max_length_image false
      "hello".toList = ["hello".toList] :=
  ⟨by decide,
   c4_short_text_single_fragment Bluesky_max_length Bluesky_max_length_image
     false "hello".toList (by decide)⟩

/-- Claim C8: after a 429 login response carrying reset time `T`,
`Bluesky.auth` stores `T` as the rate-limit expiry and returns without
raising (the connection flag is untouched, so the service stays
disconnected); any later `auth` call at a time strictly before the
stored expiry makes no login attempt and leaves the state unchanged; an
`auth` call at or after the expiry attempts login; a non-429 login
failure re-raises. -/
theorem c8_auth_rate_limit :
    (∀ st now T, st.login_ratelimit_expiry ≤ now →
        bluesky_auth st now (.rateLimited T) =
          ⟨{ st with login_ratelimit_expiry := T }, true, none⟩) ∧
    (∀ st now login, now < st.login_ratelimit_expiry →
        bluesky_auth st now login = ⟨st, false, none⟩) ∧
    (∀ st now login, st.login_ratelimit_expiry ≤ now →
        (bluesky_auth st now login).attempted = true) ∧
    (∀ st now, st.login_ratelimit_expiry ≤ now →
        bluesky_auth st now .failure = ⟨st, true, some .requestException⟩) := by
  refine ⟨?_, ?_, ?_, ?_⟩
  · intro st now T h
    have hn : ¬ now < st.login_ratelimit_expiry := by omega
    simp [bluesky_auth, if_neg hn]
  · intro st now login h
    simp [bluesky_auth, if_pos h]
  · intro st now login h
    have hn : ¬ now < st.login_ratelimit_expiry := by omega
    cases login <;> simp [bluesky_auth, if_neg hn]
  · intro st now h
    have hn : ¬ now < st.login_ratelimit_expiry := by omega
    simp [bluesky_auth, if_neg hn]

/-- Witness for claim C8: a 429 at time 5 with reset 10, then a call at
time 7 (before the stored expiry), a call at time 10 (at the expiry),
and a fatal failure at time 12. -/
theorem c8_auth_rate_limit_witness :
    ((⟨0, false⟩ : BlueskyState).login_ratelimit_expiry ≤ 5 ∧
      bluesky_auth ⟨0, false⟩ 5 (.rateLimited 10) = ⟨⟨10, false⟩, true, none⟩) ∧
    ((7 : Nat) < (⟨10, false⟩ : BlueskyState).login_ratelimit_expiry ∧
      bluesky_auth ⟨10, false⟩ 7 .success = ⟨⟨10, false⟩, false, none⟩) ∧
    ((⟨10, false⟩ : BlueskyState).login_ratelimit_expiry ≤ 10 ∧
      (bluesky_auth ⟨10, false⟩ 10 .success).attempted = true) ∧
    ((⟨10, false⟩ : BlueskyState).login_ratelimit_expiry ≤ 12 ∧
      bluesky_auth ⟨10, false⟩ 12 .failure =
        ⟨⟨10, false⟩, true, some .requestException⟩) :=
  ⟨⟨by decide, c8_auth_rate_limit.1 ⟨0, false⟩ 5 10 (by decide)⟩,
   ⟨by decide, c8_auth_rate_limit.2.1 ⟨10, false⟩ 7 .success (by decide)⟩,
   ⟨by decide, c8_auth_rate_limit.2.2.1 ⟨10, false⟩ 10 .success (by decide)⟩,
   ⟨by decide, c8_auth_rate_limit.2.2.2 ⟨10, false⟩ 12 (by decide)⟩⟩

/-- Claim C10: when `Bluesky.do_post` is reached while not connected and
the lazy re-auth is skipped by an active rate limit, it returns `None`
without raising; feeding that `None` into `Service.do_wrapped`'s
reply-reference extraction raises `AttributeError` (the `None` matches
neither the strong-ref check nor `hasattr(out, "id")`, and
`None.data["id"]` fails) after the first fragment, so the remaining
fragments are not posted gracefully. -/
theorem c10_none_result_raises :
    (∀ st now login sendResult, st.connected = false →
        now < st.login_ratelimit_expiry →
        bluesky_do_post st now login sendResult = ⟨st, none, none⟩) ∧
    (∀ (hasImg many : Bool) line rest results reply0,
        results.headD none = none →
        wrappedLoop hasImg many (line :: rest) results true reply0 =
          ([⟨fragLine many true line, hasImg, reply0⟩],
            some .attributeError)) := by
  constructor
  · intro st now login sendResult hc hrl
    simp [bluesky_do_post, hc, bluesky_auth, if_pos hrl]
  · intro hasImg many line rest results reply0 hout
    cases results with
    | nil => simp [wrappedLoop, updateReply]
    | cons r rs =>
      simp only [List.headD] at hout
      subst hout
      simp [wrappedLoop, updateReply]

/-- Witness for claim C10: a disconnected state rate-limited until time
10, a `do_post` at time 3 (returns `None`, raises nothing), and a
two-fragment loop whose first backend result is `None`. -/
theorem c10_none_result_raises_witness :
    ((⟨10, false⟩ : BlueskyState).connected = false ∧ (3 : Nat) < 10 ∧
      bluesky_do_post ⟨10, false⟩ 3 .success (some 7) = ⟨⟨10, false⟩, none, none⟩) ∧
    (([none, none] : List (Option BRes)).headD none = none ∧
      wrappedLoop true true [['a'], ['b']] [none, none] true none =
        ([⟨fragLine true true ['a'], true, none⟩], some .attributeError)) :=
  ⟨⟨by decide, by decide,
    c10_none_result_raises.1 ⟨10, false⟩ 3 .success (some 7) (by decide) (by decide)⟩,
   ⟨by decide,
    c10_none_result_raises.2 true true ['a'] [['b']] [none, none] none (by decide)⟩⟩

/-- The entry just appended by `add_to_history` survives the 1000-entry
truncation (the truncation drops from the front only). -/
theorem mkPostData_mem_add (hashFn : String → String) (posts : List PostData)
    (p : String) (ts : Nat) :
    mkPostData hashFn p ts ∈ add_to_history hashFn posts p ts := by
  simp only [add_to_history]
  split
  case isTrue h =>
    have hle : (posts ++ [mkPostData hashFn p ts]).length - 1000 ≤ posts.length := by
      simp [List.length_append]
    rw [List.drop_append_of_le_length hle]
    exact List.mem_append_right _ (List.mem_singleton_self _)
  case isFalse h =>
    exact List.mem_append_right _ (List.mem_singleton_self _)

/-- Claim C6: immediately after `add_to_history(t)`, `is_duplicate(v)`
is true for every casing variant `v` of `t` (same lower-cased form); and
`is_duplicate(text)` is true iff an entry with the identical digest of
the lower-cased text exists anywhere in the retained history — an exact
normalized match.  Stated for every digest function, since only the
lower-casing normalization is in the source (`hashlib.md5` is
standard-library code). -/
theorem c6_dedup_exact_normalized_match :
    (∀ (hashFn : String → String) (posts : List PostData) (t : String)
        (ts : Nat) (v : String), v.toLower = t.toLower →
        is_duplicate hashFn (add_to_history hashFn posts t ts) v = true) ∧
    (∀ (hashFn : String → String) (posts : List PostData) (t : String),
        is_duplicate hashFn posts t = true ↔
          ∃ e ∈ posts, e.hash = hashFn t.toLower) := by
  constructor
  · intro hashFn posts t ts v hv
    have hm := mkPostData_mem_add hashFn posts t ts
    simp only [is_duplicate, List.any_eq_true, beq_iff_eq]
    exact ⟨mkPostData hashFn t ts, hm, by simp [mkPostData, hv]⟩
  · intro hashFn posts t
    simp [is_duplicate, List.any_eq_true, beq_iff_eq]

/-- Witness for claim C6: record "Hello World", then query the casing
variant "hello world"; and the membership reading of `is_duplicate` at
a concrete one-entry history. -/
theorem c6_dedup_exact_normalized_match_witness :
    ("Hello World".toLower = "Hello World".toLower ∧
      is_duplicate (fun s => s)
        (add_to_history (fun s => s) [] "Hello World" 3) "Hello World" = true) ∧
    (is_duplicate (fun s => s) [⟨"abc", "abc", 0⟩] "ABC" = true ↔
      ∃ e ∈ [(⟨"abc", "abc", 0⟩ : PostData)], e.hash = (fun s : String => s) "ABC".toLower) :=
  ⟨⟨rfl,
    c6_dedup_exact_normalized_match.1 (fun s => s) [] "Hello World" 3
      "Hello World" rfl⟩,
   c6_dedup_exact_normalized_match.2 (fun s => s) [⟨"abc", "abc", 0⟩] "ABC"⟩

/-- `add_to_history` in closed form: append, then drop the front down to
the last 1000 entries. -/
theorem add_to_history_eq_drop (hashFn : String → String)
    (posts : List PostData) (p : String) (ts : Nat) :
    add_to_history hashFn posts p ts =
      (posts ++ [mkPostData hashFn p ts]).drop (posts.length + 1 - 1000) := by
  simp only [add_to_history]
  split
  case isTrue h => simp [List.length_append]
  case isFalse h =>
    have h0 : posts.length + 1 - 1000 = 0 := by
      simp [List.length_append] at h
      omega
    simp [h0]

/-- The retained history never exceeds 1000 entries after any
`add_to_history` call. -/
theorem add_to_history_length_le (hashFn : String → String)
    (posts : List PostData) (p : String) (ts : Nat) :
    (add_to_history hashFn posts p ts).length ≤ 1000 := by
  simp only [add_to_history]
  split
  case isTrue h =>
    simp only [List.length_drop, List.length_append, List.length_singleton] at h ⊢
    omega
  case isFalse h =>
    simp only [List.length_append, List.length_singleton] at h ⊢
    omega

/-- Fusing a front-truncation into a following drop over an appended
list. -/
theorem drop_drop_append {α : Type} (a b : List α) (k m : Nat)
    (hk : k ≤ a.length) : (a.drop k ++ b).drop m = (a ++ b).drop (m + k) := by
  rw [← List.drop_append_of_le_length hk, List.drop_drop, Nat.add_comm]

/-- Iterated recording in closed form: starting from a history of at
most 1000 entries, the result is the suffix of all appended entries that
keeps the most recent 1000. -/
theorem recordAll_eq_drop (hashFn : String → String) :
    ∀ (inputs : List (String × Nat)) (posts : List PostData),
      posts.length ≤ 1000 →
      recordAll hashFn inputs posts =
        (posts ++ inputs.map (fun pt => mkPostData hashFn pt.1 pt.2)).drop
          (posts.length + inputs.length - 1000) := by
  intro inputs
  induction inputs with
  | nil =>
    intro posts h
    simp [recordAll, Nat.sub_eq_zero_of_le h]
  | cons pt rest ih =>
    intro posts h
    have hrec : recordAll hashFn (pt :: rest) posts =
        recordAll hashFn rest (add_to_history hashFn posts pt.1 pt.2) := rfl
    rw [hrec, ih _ (add_to_history_length_le hashFn posts pt.1 pt.2),
      add_to_history_eq_drop hashFn posts pt.1 pt.2]
    rw [drop_drop_append _ _ _ _
      (by simp only [List.length_append, List.length_singleton]; omega)]
    have harr : (posts ++ [mkPostData hashFn pt.1 pt.2]) ++
        rest.map (fun q => mkPostData hashFn q.1 q.2) =
        posts ++ (pt :: rest).map (fun q => mkPostData hashFn q.1 q.2) := by
      simp
    rw [harr]
    have hnum : ((posts ++ [mkPostData hashFn pt.1 pt.2]).drop
        (posts.length + 1 - 1000)).length + rest.length - 1000 +
        (posts.length + 1 - 1000) =
        posts.length + (pt :: rest).length - 1000 := by
      simp only [List.length_drop, List.length_append, List.length_singleton,
        List.length_cons, List.length_nil]
      omega
    rw [hnum]

/-- Claim C7: the retained history never exceeds 1000 entries after any
record; starting from an empty history, 1001 records leave exactly the
entries of the last 1000 inputs in append order (the first-appended
entry is evicted — FIFO). -/
theorem c7_history_capped_at_1000 :
    (∀ (hashFn : String → String) (posts : List PostData) (p : String)
        (ts : Nat), (add_to_history hashFn posts p ts).length ≤ 1000) ∧
    (∀ (hashFn : String → String) (inputs : List (String × Nat)),
        inputs.length = 1001 →
        recordAll hashFn inputs [] =
          (inputs.drop 1).map (fun pt => mkPostData hashFn pt.1 pt.2) ∧
        (recordAll hashFn inputs []).length = 1000) := by
  constructor
  · exact add_to_history_length_le
  · intro hashFn inputs hlen
    have h := recordAll_eq_drop hashFn inputs [] (by simp)
    simp only [List.nil_append, List.length_nil, Nat.zero_add, hlen] at h
    have h1 : (1001 : Nat) - 1000 = 1 := by omega
    rw [h1] at h
    rw [← List.map_drop] at h
    refine ⟨h, ?_⟩
    rw [h]
    simp [List.length_drop, hlen]

/-- Witness for claim C7: 1001 numbered inputs recorded into an empty
history. -/
theorem c7_history_capped_at_1000_witness :
    ((List.range 1001).map (fun i => (toString i, i))).length = 1001 ∧
    recordAll (fun s => s) ((List.range 1001).map (fun i => (toString i, i))) [] =
      (((List.range 1001).map (fun i => (toString i, i))).drop 1).map
        (fun pt => mkPostData (fun s => s) pt.1 pt.2) ∧
    (recordAll (fun s => s)
      ((List.range 1001).map (fun i => (toString i, i))) []).length = 1000 :=
  ⟨by simp,
   c7_history_capped_at_1000.2 (fun s => s)
     ((List.range 1001).map (fun i => (toString i, i))) (by simp)⟩

/-- The selection fold of `longest_allowed` keeps the last qualifying
element it sees, so it computes the last element of the filtered list
(or the initial pick when nothing qualifies). -/
theorem foldl_pick_eq_getLastD (m : Nat) :
    ∀ (l : List Text) (init : Text),
      l.foldl (fun picked s => if s.length < m then s else picked) init =
        (l.filter (fun s => decide (s.length < m))).getLastD init := by
  intro l
  induction l with
  | nil => intro init; rfl
  | cons x xs ih =>
    intro init
    by_cases hx : x.length < m
    · rw [List.foldl_cons, if_pos hx, ih, List.filter_cons,
        if_pos (decide_eq_true hx), List.getLastD_cons]
    · rw [List.foldl_cons, if_neg hx, ih, List.filter_cons,
        if_neg (fun hh => hx (of_decide_eq_true hh))]

/-- The defaulted last element of a list is the default or a member. -/
theorem lastD_mem_cons {α : Type} :
    ∀ (l : List α) (a : α), l.getLastD a ∈ a :: l := by
  intro l
  induction l with
  | nil => intro a; simp
  | cons b t ih =>
    intro a
    rw [List.getLastD_cons]
    exact List.mem_cons_of_mem a (ih b)

/-- The defaulted last element of a non-empty list is a member. -/
theorem lastD_mem {α : Type} :
    ∀ (l : List α) (d : α), l ≠ [] → l.getLastD d ∈ l := by
  intro l d h
  cases l with
  | nil => exact absurd rfl h
  | cons a t =>
    rw [List.getLastD_cons]
    exact lastD_mem_cons t a

/-- In a pairwise-related list every member is related to the defaulted
last element, for a reflexive relation. -/
theorem pairwise_rel_lastD {α : Type} {r : α → α → Prop}
    (hrefl : ∀ a, r a a) :
    ∀ (l : List α) (d : α), l.Pairwise r → ∀ x ∈ l, r x (l.getLastD d) := by
  intro l
  induction l with
  | nil => intro d _ x hx; cases hx
  | cons a t ih =>
    intro d hp x hx
    rw [List.getLastD_cons]
    rcases List.mem_cons.mp hx with rfl | hxt
    · rcases List.mem_cons.mp (lastD_mem_cons t x) with hl | hl
      · rw [hl]; exact hrefl x
      · exact (List.pairwise_cons.mp hp).1 _ hl
    · exact ih a (List.pairwise_cons.mp hp).2 x hxt

/-- Claim C2: for a non-empty candidate list, `longest_allowed` returns
a candidate whose length is strictly under the applicable limit whenever
one exists, and it is the longest such candidate — ties resolved to the
candidate reached last in the stable length-sorted order; when no
candidate is strictly under the limit it returns the first candidate in
original order. -/
theorem c2_longest_allowed (maxL maxLI : Nat) (img : Bool)
    (status : List Text) (s0 : Text) (rest : List Text)
    (h : status = s0 :: rest) :
    ∃ r, longest_allowed maxL maxLI img status = some r ∧
      ((∃ c ∈ status, c.length < pick_max_len maxL maxLI img) →
        r ∈ status ∧ r.length < pick_max_len maxL maxLI img ∧
        (∀ c ∈ status, c.length < pick_max_len maxL maxLI img →
          c.length ≤ r.length) ∧
        r = ((List.insertionSort lenLE status).filter
          (fun s => decide (s.length < pick_max_len maxL maxLI img))).getLastD s0) ∧
      ((∀ c ∈ status, ¬ c.length < pick_max_len maxL maxLI img) → r = s0) := by
  subst h
  refine ⟨_, rfl, ?_, ?_⟩
  · rintro ⟨c, hc, hcm⟩
    rw [foldl_pick_eq_getLastD]
    have hperm := List.perm_insertionSort lenLE (s0 :: rest)
    have hsort : (List.insertionSort lenLE (s0 :: rest)).Pairwise lenLE :=
      List.sorted_insertionSort lenLE (s0 :: rest)
    have hcs : c ∈ List.insertionSort lenLE (s0 :: rest) := hperm.mem_iff.mpr hc
    have hcf : c ∈ (List.insertionSort lenLE (s0 :: rest)).filter
        (fun s => decide (s.length < pick_max_len maxL maxLI img)) :=
      List.mem_filter.mpr ⟨hcs, decide_eq_true hcm⟩
    have hfne := List.ne_nil_of_mem hcf
    have hrf := lastD_mem _ s0 hfne
    have hrprop := List.mem_filter.mp hrf
    refine ⟨hperm.mem_iff.mp (List.mem_of_mem_filter hrf),
      of_decide_eq_true hrprop.2, ?_, rfl⟩
    intro c' hc' hcm'
    have hcf' : c' ∈ (List.insertionSort lenLE (s0 :: rest)).filter
        (fun s => decide (s.length < pick_max_len maxL maxLI img)) :=
      List.mem_filter.mpr ⟨hperm.mem_iff.mpr hc', decide_eq_true hcm'⟩
    exact @pairwise_rel_lastD Text lenLE (fun a => Nat.le_refl a.length) _ s0
      (hsort.filter _) c' hcf'
  · intro hnone
    rw [foldl_pick_eq_getLastD]
    have hfe : (List.insertionSort lenLE (s0 :: rest)).filter
        (fun s => decide (s.length < pick_max_len maxL maxLI img)) = [] := by
      rw [List.filter_eq_nil_iff]
      intro a ha
      simp only [decide_eq_true_eq]
      exact hnone a
        ((List.perm_insertionSort lenLE (s0 :: rest)).mem_iff.mp ha)
    rw [hfe]
    rfl

/-- Witness for claim C2: candidates ["aa", "b", "cccc"] with limit 4 —
the pick is "aa", the longest candidate strictly under the limit. -/
theorem c2_longest_allowed_witness :
    ([['a', 'a'], ['b'], ['c', 'c', 'c', 'c']] : List Text) =
      ['a', 'a'] :: [['b'], ['c', 'c', 'c', 'c']] ∧
    ∃ r, longest_allowed 4 4 false [['a', 'a'], ['b'], ['c', 'c', 'c', 'c']] =
        some r ∧
      ((∃ c ∈ ([['a', 'a'], ['b'], ['c', 'c', 'c', 'c']] : List Text),
          c.length < pick_max_len 4 4 false) →
        r ∈ ([['a', 'a'], ['b'], ['c', 'c', 'c', 'c']] : List Text) ∧
        r.length < pick_max_len 4 4 false ∧
        (∀ c ∈ ([['a', 'a'], ['b'], ['c', 'c', 'c', 'c']] : List Text),
          c.length < pick_max_len 4 4 false → c.length ≤ r.length) ∧
        r = ((List.insertionSort lenLE
            [['a', 'a'], ['b'], ['c', 'c', 'c', 'c']]).filter
          (fun s => decide (s.length < pick_max_len 4 4 false))).getLastD
            ['a', 'a']) ∧
      ((∀ c ∈ ([['a', 'a'], ['b'], ['c', 'c', 'c', 'c']] : List Text),
          ¬ c.length < pick_max_len 4 4 false) → r = ['a', 'a']) :=
  ⟨rfl, c2_longest_allowed 4 4 false _ ['a', 'a'] [['b'], ['c', 'c', 'c', 'c']] rfl⟩

/-- Spec-side description (for claim C5) of the calls made for the
fragments after the first when every backend result is a structured
strong ref: no images, and each call replies with the shared thread root
and the immediately preceding result as parent. -/
def strongChain (many : Bool) (root : BRes) :
    List Text → BRes → List Nat → List Call
  | [], _, _ => []
  | l :: ls, prev, rs =>
    ⟨fragLine many false l, false, some (.rootParent root prev)⟩ ::
      strongChain many root ls (.strongRef (rs.headD 0)) rs.tail

/-- Spec-side description (for claim C5) of the calls made for the
fragments after the first when every backend result carries a flat id:
no images, and each call replies with the immediately preceding
result's id. -/
def flatChain (many : Bool) : List Text → Nat → List Nat → List Call
  | [], _, _ => []
  | l :: ls, prev, rs =>
    ⟨fragLine many false l, false, some (.flat prev)⟩ ::
      flatChain many ls (rs.headD 0) rs.tail

/-- After the first fragment, the loop over strong-ref results keeps the
root and moves the parent to the preceding result. -/
theorem wrappedLoop_strong_tail (hasImg many : Bool) (root : BRes) :
    ∀ (ls : List Text) (rs : List Nat) (prev : BRes),
      rs.length = ls.length →
      wrappedLoop hasImg many ls (rs.map (fun n => some (.strongRef n))) false
        (some (.rootParent root prev)) =
      (strongChain many root ls prev rs, none) := by
  intro ls
  induction ls with
  | nil =>
    intro rs prev _
    rfl
  | cons l ls ih =>
    intro rs prev hlen
    cases rs with
    | nil => simp at hlen
    | cons r rs =>
      simp only [List.length_cons] at hlen
      simp [wrappedLoop, updateReply, strongChain,
        ih rs (BRes.strongRef r) (by omega)]

/-- After the first fragment, the loop over flat-id results replies to
the preceding result's id. -/
theorem wrappedLoop_flat_tail (hasImg many : Bool) :
    ∀ (ls : List Text) (rs : List Nat) (prev : Nat),
      rs.length = ls.length →
      wrappedLoop hasImg many ls (rs.map (fun n => some (.withId n))) false
        (some (.flat prev)) =
      (flatChain many ls prev rs, none) := by
  intro ls
  induction ls with
  | nil =>
    intro rs prev _
    rfl
  | cons l ls ih =>
    intro rs prev hlen
    cases rs with
    | nil => simp at hlen
    | cons r rs =>
      simp only [List.length_cons] at hlen
      simp [wrappedLoop, updateReply, flatChain, ih rs r (by omega)]

/-- Claim C5: in a wrapped post with more than one fragment (the
`len(wrapped) > 1` flag is true), the first `do_post` call carries the
images flag and the caller-supplied reply target; for a backend
returning structured references, the second fragment replies with
`{root := firstResult, parent := firstResult}` and each later fragment
keeps that root while the parent becomes the immediately preceding
result; for a backend returning flat ids, each fragment after the first
replies to the previous fragment's id; no call after the first carries
images. -/
theorem c5_reply_chain :
    (∀ (hasImg : Bool) (l0 : Text) (ls : List Text) (r0 : Nat)
        (rs : List Nat) (reply0 : Option ReplyVal), rs.length = ls.length →
        wrappedLoop hasImg true (l0 :: ls)
          (some (.strongRef r0) :: rs.map (fun n => some (.strongRef n)))
          true reply0 =
        (⟨fragLine true true l0, hasImg, reply0⟩ ::
          strongChain true (.strongRef r0) ls (.strongRef r0) rs, none)) ∧
    (∀ (hasImg : Bool) (l0 : Text) (ls : List Text) (r0 : Nat)
        (rs : List Nat) (reply0 : Option ReplyVal), rs.length = ls.length →
        wrappedLoop hasImg true (l0 :: ls)
          (some (.withId r0) :: rs.map (fun n => some (.withId n)))
          true reply0 =
        (⟨fragLine true true l0, hasImg, reply0⟩ ::
          flatChain true ls r0 rs, none)) := by
  constructor
  · intro hasImg l0 ls r0 rs reply0 hlen
    simp [wrappedLoop, updateReply,
      wrappedLoop_strong_tail hasImg true (.strongRef r0) ls rs
        (.strongRef r0) hlen]
  · intro hasImg l0 ls r0 rs reply0 hlen
    simp [wrappedLoop, updateReply,
      wrappedLoop_flat_tail hasImg true ls rs r0 hlen]

/-- Witness for claim C5: three fragments against strong-ref results 5,
7, 9 and against flat-id results 5, 7, 9. -/
theorem c5_reply_chain_witness :
    (([7, 9] : List Nat).length = ([['b'], ['c']] : List Text).length ∧
      wrappedLoop true true [['a'], ['b'], ['c']]
        (some (.strongRef 5) :: ([7, 9] : List Nat).map
          (fun n => some (.strongRef n))) true none =
      (⟨fragLine true true ['a'], true, none⟩ ::
        strongChain true (.strongRef 5) [['b'], ['c']] (.strongRef 5) [7, 9],
        none)) ∧
    (([7, 9] : List Nat).length = ([['b'], ['c']] : List Text).length ∧
      wrappedLoop false true [['a'], ['b'], ['c']]
        (some (.withId 5) :: ([7, 9] : List Nat).map
          (fun n => some (.withId n))) true none =
      (⟨fragLine true true ['a'], false, none⟩ ::
        flatChain true [['b'], ['c']] 5 [7, 9], none)) :=
  ⟨⟨by decide,
    c5_reply_chain.1 true ['a'] [['b'], ['c']] 5 [7, 9] none (by decide)⟩,
   ⟨by decide,
    c5_reply_chain.2 false ['a'] [['b'], ['c']] 5 [7, 9] none (by decide)⟩⟩

/-- A word as produced by the whitespace chunker: non-empty and free of
whitespace characters. -/
def wordOk (w : Text) : Prop := w ≠ [] ∧ ∀ c ∈ w, isWs c = false

/-- Every word emitted by the chunker is non-empty and whitespace-free,
provided the pending accumulator is whitespace-free. -/
theorem wordsAux_good :
    ∀ (t : Text) (acc : List Char), (∀ c ∈ acc, isWs c = false) →
      ∀ w ∈ wordsAux acc t, wordOk w := by
  intro t
  induction t with
  | nil =>
    intro acc hacc w hw
    simp only [wordsAux] at hw
    by_cases ha : acc = []
    · rw [if_pos ha] at hw
      cases hw
    · rw [if_neg ha] at hw
      rcases List.mem_singleton.mp hw with rfl
      refine ⟨by simpa using ha, ?_⟩
      intro c hc
      exact hacc c (List.mem_reverse.mp hc)
  | cons c cs ih =>
    intro acc hacc w hw
    simp only [wordsAux] at hw
    by_cases hc : isWs c = true
    · rw [if_pos hc] at hw
      by_cases ha : acc = []
      · rw [if_pos ha] at hw
        exact ih [] (by simp) w hw
      · rw [if_neg ha] at hw
        rcases List.mem_cons.mp hw with rfl | hw'
        · refine ⟨by simpa using ha, ?_⟩
          intro x hx
          exact hacc x (List.mem_reverse.mp hx)
        · exact ih [] (by simp) w hw'
    · rw [if_neg hc] at hw
      refine ih (c :: acc) ?_ w hw
      intro x hx
      rcases List.mem_cons.mp hx with rfl | hx'
      · exact Bool.not_eq_true (isWs x) ▸ hc
      · exact hacc x hx'

/-- Every word of a text is non-empty and whitespace-free. -/
theorem words_good (t : Text) : ∀ w ∈ words t, wordOk w :=
  wordsAux_good t [] (by simp)

/-- Scanning a whitespace-free block moves it wholesale into the
accumulator. -/
theorem wordsAux_append :
    ∀ (w : Text) (acc : List Char) (t : Text),
      (∀ c ∈ w, isWs c = false) →
      wordsAux acc (w ++ t) = wordsAux (w.reverse ++ acc) t := by
  intro w
  induction w with
  | nil => intro acc t _; simp
  | cons c w' ih =>
    intro acc t hw
    have hc : isWs c = false := hw c (List.mem_cons_self c w')
    show wordsAux acc (c :: (w' ++ t)) = _
    rw [wordsAux, if_neg (by simp [hc]),
      ih (c :: acc) t (fun x hx => hw x (List.mem_cons_of_mem c hx))]
    simp

/-- The chunker inverts the renderer on lists of proper words. -/
theorem words_render :
    ∀ (l : List Text), (∀ w ∈ l, wordOk w) → words (render l) = l := by
  intro l
  induction l with
  | nil => intro _; rfl
  | cons w l' ih =>
    intro hok
    have hw := hok w (List.mem_cons_self w l')
    cases l' with
    | nil =>
      show words w = [w]
      rw [words, ← List.append_nil w, wordsAux_append w [] [] hw.2, wordsAux,
        if_neg (by simp [hw.1])]
      simp
    | cons w2 l'' =>
      show words (w ++ ' ' :: render (w2 :: l'')) = w :: w2 :: l''
      rw [words, wordsAux_append w [] _ hw.2, wordsAux,
        if_pos (show isWs ' ' = true by decide), if_neg (by simp [hw.1])]
      rw [show wordsAux [] (render (w2 :: l'')) = words (render (w2 :: l''))
        from rfl]
      rw [ih (fun x hx => hok x (List.mem_cons_of_mem w hx))]
      simp

/-- Rendered length of the empty line. -/
theorem lineLen_nil : lineLen [] = 0 := rfl

/-- Rendered length of a one-word line. -/
theorem lineLen_singleton (w : Text) : lineLen [w] = w.length := by
  simp [lineLen]

/-- Rendered length after appending a word to a non-empty line: one
separating space plus the word. -/
theorem lineLen_append_singleton (cur : List Text) (w : Text)
    (h : cur ≠ []) :
    lineLen (cur ++ [w]) = lineLen cur + 1 + w.length := by
  have h1 : 1 ≤ cur.length := List.length_pos.mpr h
  simp only [lineLen, List.map_append, List.sum_append, List.length_append,
    List.map_cons, List.map_nil, List.sum_cons, List.sum_nil,
    List.length_cons, List.length_nil]
  omega

/-- The renderer's output length is the rendered line length. -/
theorem render_length : ∀ l : List Text, (render l).length = lineLen l := by
  intro l
  induction l with
  | nil => rfl
  | cons w l' ih =>
    cases l' with
    | nil => simp [render, lineLen]
    | cons w2 l'' =>
      show (w ++ ' ' :: render (w2 :: l'')).length = _
      simp only [List.length_append, List.length_cons, ih]
      simp only [lineLen, List.map_cons, List.sum_cons, List.length_cons]
      omega

/-- Every line produced by the wrapper has rendered length at most the
width (for positive width). -/
theorem wrapAux_lineLen_le (width : Nat) (hwidth : 1 ≤ width) :
    ∀ (cur ws : List Text), lineLen cur ≤ width →
      ∀ l ∈ wrapAux width cur ws, lineLen l ≤ width := by
  intro cur ws
  induction cur, ws using wrapAux.induct width with
  | case1 =>
    intro _ l hl
    simp [wrapAux] at hl
  | case2 cur hcur =>
    intro hle l hl
    rw [wrapAux, if_neg hcur] at hl
    rcases List.mem_singleton.mp hl with rfl
    exact hle
  | case3 w ws hfit ih =>
    intro _ l hl
    rw [wrapAux, if_pos rfl, if_pos hfit] at hl
    exact ih (by rw [lineLen_singleton]; exact hfit) l hl
  | case4 w ws hlong ih =>
    intro _ l hl
    rw [wrapAux, if_pos rfl, if_neg hlong] at hl
    rcases List.mem_cons.mp hl with rfl | hl'
    · rw [lineLen_singleton, List.length_take]
      omega
    · exact ih (by rw [lineLen_nil]; omega) l hl'
  | case5 cur w ws hcur hfit ih =>
    intro hle l hl
    rw [wrapAux, if_neg hcur, if_pos hfit] at hl
    refine ih ?_ l hl
    rw [lineLen_append_singleton cur w hcur]
    exact hfit
  | case6 cur w ws hcur hnofit hwle ih =>
    intro hle l hl
    rw [wrapAux, if_neg hcur, if_neg hnofit, if_pos hwle] at hl
    rcases List.mem_cons.mp hl with rfl | hl'
    · exact hle
    · exact ih (by rw [lineLen_singleton]; exact hwle) l hl'
  | case7 cur w ws hcur hnofit hwlong hroom ih =>
    intro hle l hl
    rw [wrapAux, if_neg hcur, if_neg hnofit, if_neg hwlong, if_pos hroom] at hl
    rcases List.mem_cons.mp hl with rfl | hl'
    · rw [lineLen_append_singleton cur _ hcur, List.length_take]
      omega
    · exact ih (by rw [lineLen_nil]; omega) l hl'
  | case8 cur w ws hcur hnofit hwlong hnoroom ih =>
    intro hle l hl
    rw [wrapAux, if_neg hcur, if_neg hnofit, if_neg hwlong,
      if_neg hnoroom] at hl
    rcases List.mem_cons.mp hl with rfl | hl'
    · exact hle
    · exact ih (by rw [lineLen_nil]; omega) l hl'

/-- When every pending word fits in the width, the wrapper never splits
a word: the concatenation of its lines is exactly the pending words (in
order, following the current line's words), and every word on every
line is a proper word when the inputs are. -/
theorem wrapAux_no_long (width : Nat) :
    ∀ (cur ws : List Text),
      (∀ w ∈ ws, w.length ≤ width) → (∀ w ∈ ws, wordOk w) →
      (∀ w ∈ cur, wordOk w) →
      (wrapAux width cur ws).flatten = cur ++ ws ∧
      ∀ l ∈ wrapAux width cur ws, ∀ w ∈ l, wordOk w := by
  intro cur ws
  induction cur, ws using wrapAux.induct width with
  | case1 =>
    intro _ _ _
    rw [wrapAux, if_pos rfl]
    constructor
    · rfl
    · intro l hl
      cases hl
  | case2 cur hcur =>
    intro _ _ hgcur
    rw [wrapAux, if_neg hcur]
    constructor
    · simp
    · intro l hl
      rcases List.mem_singleton.mp hl with rfl
      exact hgcur
  | case3 w ws hfit ih =>
    intro hw hgws hgcur
    rw [wrapAux, if_pos rfl, if_pos hfit]
    have hw' : ∀ x ∈ ws, x.length ≤ width :=
      fun x hx => hw x (List.mem_cons_of_mem w hx)
    have hg' : ∀ x ∈ ws, wordOk x :=
      fun x hx => hgws x (List.mem_cons_of_mem w hx)
    have hgw : ∀ x ∈ [w], wordOk x := by
      intro x hx
      rcases List.mem_singleton.mp hx with rfl
      exact hgws x (List.mem_cons_self x ws)
    rcases ih hw' hg' hgw with ⟨h1, h2⟩
    exact ⟨by rw [h1]; rfl, h2⟩
  | case4 w ws hlong ih =>
    intro hw _ _
    exact absurd (hw w (List.mem_cons_self w ws)) hlong
  | case5 cur w ws hcur hfit ih =>
    intro hw hgws hgcur
    rw [wrapAux, if_neg hcur, if_pos hfit]
    have hw' : ∀ x ∈ ws, x.length ≤ width :=
      fun x hx => hw x (List.mem_cons_of_mem w hx)
    have hg' : ∀ x ∈ ws, wordOk x :=
      fun x hx => hgws x (List.mem_cons_of_mem w hx)
    have hgw : ∀ x ∈ cur ++ [w], wordOk x := by
      intro x hx
      rcases List.mem_append.mp hx with hx' | hx'
      · exact hgcur x hx'
      · rcases List.mem_singleton.mp hx' with rfl
        exact hgws x (List.mem_cons_self x ws)
    rcases ih hw' hg' hgw with ⟨h1, h2⟩
    refine ⟨?_, h2⟩
    rw [h1, List.append_assoc]
    rfl
  | case6 cur w ws hcur hnofit hwle ih =>
    intro hw hgws hgcur
    rw [wrapAux, if_neg hcur, if_neg hnofit, if_pos hwle]
    have hw' : ∀ x ∈ ws, x.length ≤ width :=
      fun x hx => hw x (List.mem_cons_of_mem w hx)
    have hg' : ∀ x ∈ ws, wordOk x :=
      fun x hx => hgws x (List.mem_cons_of_mem w hx)
    have hgw : ∀ x ∈ [w], wordOk x := by
      intro x hx
      rcases List.mem_singleton.mp hx with rfl
      exact hgws x (List.mem_cons_self x ws)
    rcases ih hw' hg' hgw with ⟨h1, h2⟩
    constructor
    · rw [List.flatten_cons, h1]
      rfl
    · intro l hl
      rcases List.mem_cons.mp hl with rfl | hl'
      · exact hgcur
      · exact h2 l hl'
  | case7 cur w ws hcur hnofit hwlong hroom ih =>
    intro hw _ _
    exact absurd (hw w (List.mem_cons_self w ws)) hwlong
  | case8 cur w ws hcur hnofit hwlong hnoroom ih =>
    intro hw _ _
    exact absurd (hw w (List.mem_cons_self w ws)) hwlong

/-- Decorating preserves the number of fragments. -/
theorem fragmentsAux_length (many : Bool) :
    ∀ (first : Bool) (lines : List Text),
      (fragmentsAux many first lines).length = lines.length := by
  intro first lines
  induction lines generalizing first with
  | nil => rfl
  | cons l ls ih => simp [fragmentsAux, ih]

/-- From the second fragment on, decorating is a plain map. -/
theorem fragmentsAux_false_map (many : Bool) :
    ∀ lines : List Text,
      fragmentsAux many false lines = lines.map (fragLine many false) := by
  intro lines
  induction lines with
  | nil => rfl
  | cons l ls ih => simp [fragmentsAux, ih]

/-- Every decorated fragment comes from some wrapped line. -/
theorem fragmentsAux_mem (many : Bool) :
    ∀ (first : Bool) (lines : List Text) (f : Text),
      f ∈ fragmentsAux many first lines →
      ∃ l ∈ lines, ∃ b, f = fragLine many b l := by
  intro first lines
  induction lines generalizing first with
  | nil => intro f hf; cases hf
  | cons l ls ih =>
    intro f hf
    rcases List.mem_cons.mp hf with rfl | hf'
    · exact ⟨l, List.mem_cons_self l ls, first, rfl⟩
    · rcases ih false f hf' with ⟨l', hl', b, hb⟩
      exact ⟨l', List.mem_cons_of_mem l hl', b, hb⟩

/-- The ellipsis decoration adds at most one character. -/
theorem fragLine_length (many first : Bool) (l : Text) :
    (fragLine many first l).length ≤ l.length + 1 := by
  cases many <;> cases first <;> simp [fragLine]

/-- The first fragment of a multi-fragment wrap carries a trailing
ellipsis. -/
theorem fragLine_true_true (l : Text) : fragLine true true l = l ++ ['…'] := by
  simp [fragLine]

/-- Later fragments of a multi-fragment wrap carry a leading ellipsis. -/
theorem fragLine_true_false (l : Text) : fragLine true false l = '…' :: l := by
  simp [fragLine]

/-- Stripping undoes the trailing decoration. -/
theorem stripEllipsis_concat (x : Text) : stripEllipsis true (x ++ ['…']) = x := by
  simp [stripEllipsis, List.getLast?_concat, List.dropLast_concat]

/-- Stripping undoes the leading decoration. -/
theorem stripEllipsis_cons (x : Text) : stripEllipsis false ('…' :: x) = x := by
  simp [stripEllipsis]

/-- Claim C3, amended: for a text longer than the applicable limit (the
limit being at least 2, so that the wrap width is positive), every
fragment's length including its ellipsis is at most the limit; whenever
at least two fragments are produced, the first ends with an ellipsis
character and every later one begins with one; and when additionally
every word of the text fits in the wrap width (limit minus the ellipsis
allowance) and the words joined by single spaces still exceed the limit,
at least two fragments are produced and stripping the ellipses and
concatenating the fragments' words recovers the words of the original
text in order. -/
theorem c3_wrap_fragment_properties (maxL maxLI : Nat) (img : Bool)
    (status : Text) (h2 : 2 ≤ pick_max_len maxL maxLI img)
    (hlong : pick_max_len maxL maxLI img < status.length) :
    (∀ f ∈ do_wrapped_fragments maxL maxLI img status,
      f.length ≤ pick_max_len maxL maxLI img) ∧
    (∀ f0 fs, do_wrapped_fragments maxL maxLI img status = f0 :: fs →
      fs ≠ [] → f0.getLast? = some '…' ∧ ∀ f ∈ fs, f.head? = some '…') ∧
    ((∀ w ∈ words status,
        w.length ≤ pick_max_len maxL maxLI img - ellipsis_length) →
      pick_max_len maxL maxLI img < lineLen (words status) →
      2 ≤ (do_wrapped_fragments maxL maxLI img status).length ∧
      ((strippedFragments (do_wrapped_fragments maxL maxLI img status)).map
        words).flatten = words status) := by
  have hwidth : 1 ≤ pick_max_len maxL maxLI img - ellipsis_length := by
    simp only [ellipsis_length]
    omega
  have hwl : wrappedLines maxL maxLI img status =
      (wrapAux (pick_max_len maxL maxLI img - ellipsis_length) []
        (words status)).map render := by
    simp only [wrappedLines, textwrap_wrap]
    rw [if_pos hlong]
  have hfrag : do_wrapped_fragments maxL maxLI img status =
      fragmentsAux (decide (1 < (wrappedLines maxL maxLI img status).length))
        true (wrappedLines maxL maxLI img status) := rfl
  refine ⟨?_, ?_, ?_⟩
  · intro f hf
    rw [hfrag, hwl] at hf
    rcases fragmentsAux_mem _ _ _ f hf with ⟨l, hl, b, rfl⟩
    rcases List.mem_map.mp hl with ⟨lw, hlw, rfl⟩
    have hll := wrapAux_lineLen_le _ hwidth [] (words status)
      (by rw [lineLen_nil]; omega) lw hlw
    refine le_trans (fragLine_length _ b (render lw)) ?_
    have hrl := render_length lw
    simp only [ellipsis_length] at hll
    omega
  · intro f0 fs heq hfs
    rw [hfrag] at heq
    rcases hcase : wrappedLines maxL maxLI img status with _ | ⟨l0, ls⟩
    · rw [hcase] at heq
      simp [fragmentsAux] at heq
    · rcases hls : ls with _ | ⟨l1, rest⟩
      · rw [hcase, hls] at heq
        have hlen := congrArg List.length heq
        simp only [fragmentsAux, List.length_cons, List.length_nil] at hlen
        exact absurd (List.length_eq_zero.mp (by omega)) hfs
      · rw [hcase, hls] at heq
        have hm : decide (1 < (l0 :: l1 :: rest).length) = true := by simp
        rw [hm] at heq
        rw [show fragmentsAux true true (l0 :: l1 :: rest) =
          fragLine true true l0 :: fragmentsAux true false (l1 :: rest)
          from rfl] at heq
        rw [List.cons.injEq] at heq
        obtain ⟨hf0, hfs'⟩ := heq
        constructor
        · rw [← hf0, fragLine_true_true, List.getLast?_concat]
        · intro f hf
          rw [← hfs', fragmentsAux_false_map] at hf
          rcases List.mem_map.mp hf with ⟨l, hl, rfl⟩
          rw [fragLine_true_false]
          rfl
  · intro hwfit hjoin
    have hgood := words_good status
    obtain ⟨hflat, hlines_good⟩ :=
      wrapAux_no_long (pick_max_len maxL maxLI img - ellipsis_length)
        [] (words status) hwfit hgood (by intro x hx; cases hx)
    have hll := wrapAux_lineLen_le _ hwidth [] (words status)
      (by rw [lineLen_nil]; omega)
    rcases hlines : wrapAux (pick_max_len maxL maxLI img - ellipsis_length) []
        (words status) with _ | ⟨lw0, lt⟩
    · rw [hlines] at hflat
      simp only [List.flatten_nil, List.nil_append] at hflat
      rw [← hflat, lineLen_nil] at hjoin
      omega
    · rcases hlt : lt with _ | ⟨lw1, lt'⟩
      · rw [hlines, hlt] at hflat hll
        simp only [List.flatten_cons, List.flatten_nil, List.append_nil,
          List.nil_append] at hflat
        have h1 := hll lw0 (List.mem_singleton_self lw0)
        rw [hflat] at h1
        simp only [ellipsis_length] at h1
        omega
      · rw [hlines, hlt] at hflat hlines_good hll
        have hfrag2 : do_wrapped_fragments maxL maxLI img status =
            fragLine true true (render lw0) ::
              (lw1 :: lt').map (fun l => fragLine true false (render l)) := by
          rw [hfrag, hwl, hlines, hlt]
          have hm : decide (1 < ((lw0 :: lw1 :: lt').map render).length) =
              true := by simp
          rw [hm]
          rw [show fragmentsAux true true ((lw0 :: lw1 :: lt').map render) =
            fragLine true true (render lw0) ::
              fragmentsAux true false ((lw1 :: lt').map render) from rfl]
          rw [fragmentsAux_false_map, List.map_map]
          rfl
        constructor
        · rw [hfrag2]
          simp
        · rw [hfrag2]
          rw [show strippedFragments (fragLine true true (render lw0) ::
              (lw1 :: lt').map (fun l => fragLine true false (render l))) =
            stripEllipsis true (fragLine true true (render lw0)) ::
              ((lw1 :: lt').map (fun l => fragLine true false (render l))).map
                (stripEllipsis false) from rfl]
          rw [fragLine_true_true, stripEllipsis_concat, List.map_map]
          have hmap2 : (stripEllipsis false ∘
              fun l => fragLine true false (render l)) = fun l => render l := by
            funext l
            simp only [Function.comp_apply, fragLine_true_false,
              stripEllipsis_cons]
          rw [hmap2]
          rw [show (render lw0 :: (lw1 :: lt').map (fun l => render l)) =
            (lw0 :: lw1 :: lt').map render from rfl]
          rw [List.map_map]
          have hwr : ∀ l ∈ lw0 :: lw1 :: lt', (words ∘ render) l = id l := by
            intro l hl
            simp only [Function.comp_apply, id]
            exact words_render l (hlines_good l hl)
          rw [List.map_congr_left hwr, List.map_id]
          simpa using hflat

/-- Claim C3, counterexample to the claim as stated: the seven-character
single-word text "aaaaaaa" with limit 5 wraps by splitting the word
("aaaa…" and "…aaa"), so the fragments' words do not reconstruct the
original text's words. -/
theorem c3_counterexample :
    pick_max_len 5 5 false < "aaaaaaa".toList.length ∧
    ¬ (((strippedFragments (do_wrapped_fragments 5 5 false
        "aaaaaaa".toList)).map words).flatten = words "aaaaaaa".toList) := by
  constructor
  · decide
  · have hwords : words ['a', 'a', 'a', 'a', 'a', 'a', 'a'] =
        [['a', 'a', 'a', 'a', 'a', 'a', 'a']] := by decide
    have hfr : do_wrapped_fragments 5 5 false "aaaaaaa".toList =
        [['a', 'a', 'a', 'a', '…'], ['…', 'a', 'a', 'a']] := by
      rw [do_wrapped_fragments, wrappedLines]
      norm_num [pick_max_len]
      rw [textwrap_wrap, hwords]
      simp [wrapAux, lineLen, render, fragmentsAux, fragLine, ellipsis_length]
    rw [hfr]
    decide

/-- Witness for the amended claim C3: "aa bb cc dd" with limit 9. -/
theorem c3_wrap_fragment_properties_witness :
    (2 ≤ pick_max_len 9 9 false ∧
      pick_max_len 9 9 false < "aa bb cc dd".toList.length) ∧
    ((∀ f ∈ do_wrapped_fragments 9 9 false "aa bb cc dd".toList,
        f.length ≤ pick_max_len 9 9 false) ∧
      (∀ f0 fs, do_wrapped_fragments 9 9 false "aa bb cc dd".toList =
          f0 :: fs → fs ≠ [] →
          f0.getLast? = some '…' ∧ ∀ f ∈ fs, f.head? = some '…') ∧
      ((∀ w ∈ words "aa bb cc dd".toList,
          w.length ≤ pick_max_len 9 9 false - ellipsis_length) →
        pick_max_len 9 9 false < lineLen (words "aa bb cc dd".toList) →
        2 ≤ (do_wrapped_fragments 9 9 false "aa bb cc dd".toList).length ∧
        ((strippedFragments (do_wrapped_fragments 9 9 false
          "aa bb cc dd".toList)).map words).flatten =
            words "aa bb cc dd".toList)) :=
  ⟨⟨by decide, by decide⟩,
   c3_wrap_fragment_properties 9 9 false "aa bb cc dd".toList
     (by decide) (by decide)⟩

end BskyBot
